import Mathlib

/-!
Verification of the `secure_join` function of the secure-path repository
(`src/secure_join.rs`).

The Rust function operates on `PathBuf`/`Path` values over Unix path
semantics.  We model a path buffer by its text, a `List Char`, and give
faithful models of every `std::path` operation the source uses:

* `Path::iter` / `Components`: a Unix path splits on `'/'` into raw
  segments; the component stream is an optional leading root (`/`) for an
  absolute path, an optional leading `.` component (only when the path is
  relative and begins with `.` as a whole segment), and every remaining
  segment that is neither empty nor `.`, with `..` parsed as the parent
  component.
* `PathBuf::push` of a single component: replace on an absolute argument,
  otherwise append, inserting a `'/'` separator unless the buffer is empty
  or already ends with `'/'`.
* `PathBuf::pop` / `Path::parent`: truncate the buffer to the prefix that
  spans all components but the last; trailing separators and `.` segments
  after the new last component are trimmed, the root of an absolute path
  and a leading lone `.` are floors that survive.
* `Path::ends_with("..")`: the final component is the parent component.
* `Path::starts_with(base)`: the components of `base` are a prefix of the
  components of the path.

The filesystem is an external oracle (`Fs`): `read_link` returns the
symlink target text or an error, `exists` and `canonicalize` model
`Path::exists` and `Path::canonicalize` (`canonicalize` is only consulted
on paths for which `exists` returned true, mirroring the source).
-/

namespace SecurePath

/-- A raw path segment: the text between two separators. -/
abbrev Seg := List Char

/-- One parsed path component, as in `std::path::Component` (Unix, no
prefixes). -/
inductive Component where
  | rootDir
  | curDir
  | parentDir
  | normal (s : Seg)
deriving DecidableEq

/-- Split path text on `'/'` into its raw segments.  The empty text has the
single empty segment, mirroring `"".split('/')`. -/
def splitSegs : List Char → List Seg
  | [] => [[]]
  | c :: rest =>
    if c = '/' then [] :: splitSegs rest
    else
      match splitSegs rest with
      | [] => [[c]]
      | s :: ss => (c :: s) :: ss

/-- Rejoin raw segments with `'/'` separators; inverse of `splitSegs`. -/
def joinSegs : List Seg → List Char
  | [] => []
  | [s] => s
  | s :: rest => s ++ '/' :: joinSegs rest

/-- `Path::has_root` / `Path::is_absolute` on Unix: the text begins with a
separator. -/
def isAbsoluteL (l : List Char) : Bool :=
  match l with
  | [] => false
  | c :: _ => decide (c = '/')

/-- Whether the component stream includes a leading `.` component: the path
is relative and is `.` or begins with `./` (Rust `include_cur_dir`). -/
def includeCurDirL (l : List Char) : Bool :=
  if isAbsoluteL l then false
  else if l = ['.'] ∨ l.take 2 = ['.', '/'] then true
  else false

/-- The component contributed by one raw segment in body position: empty
and `.` segments vanish, `..` is the parent component, anything else is a
normal component. -/
def bodySeg (s : Seg) : Option Component :=
  if s = [] ∨ s = ['.'] then none
  else if s = ['.', '.'] then some Component.parentDir
  else some (Component.normal s)

/-- A segment that survives component parsing in body position. -/
def realSeg (s : Seg) : Bool := (bodySeg s).isSome

/-- `Path::components` of the path text (Unix). -/
def componentsL (l : List Char) : List Component :=
  (if isAbsoluteL l then [Component.rootDir] else []) ++
  (if includeCurDirL l then [Component.curDir] else []) ++
  (splitSegs l).filterMap bodySeg

/-- The text a component shows as an `OsStr` in `Path::iter`. -/
def compChars : Component → List Char
  | Component.rootDir => ['/']
  | Component.curDir => ['.']
  | Component.parentDir => ['.', '.']
  | Component.normal s => s

/-- `Path::iter`: the component texts in order. -/
def iterL (l : List Char) : List (List Char) :=
  (componentsL l).map compChars

/-- `PathBuf::push`: an absolute argument replaces the buffer; otherwise
append, inserting a separator unless the buffer is empty or already ends
with one. -/
def pushL (self p : List Char) : List Char :=
  if isAbsoluteL p then p
  else if self = [] then p
  else if self.getLast? = some '/' then self ++ p
  else self ++ '/' :: p

/-- The prefix of a segment list ending at its last real segment, `none`
when no segment is real.  Auxiliary for `parentL`. -/
def keepUptoLastReal : List Seg → Option (List Seg)
  | [] => none
  | s :: rest =>
    match keepUptoLastReal rest with
    | some ks => some (s :: ks)
    | none => if realSeg s then some [s] else none

/-- `Path::parent` as text truncation: `none` when there is no component or
only the root; otherwise drop the final component together with the
separators and `.` segments around it, flooring at `/` for an absolute
path and at the leading `.` of a `./…` path. -/
def parentL (l : List Char) : Option (List Char) :=
  match (componentsL l).getLast? with
  | none => none
  | some Component.rootDir => none
  | some Component.curDir => some []
  | some _ =>
    match keepUptoLastReal (splitSegs l) with
    | none => none
    | some ks =>
      match keepUptoLastReal ks.dropLast with
      | some ks2 => some (joinSegs ks2)
      | none =>
        if includeCurDirL l then some ['.']
        else if isAbsoluteL l then some ['/']
        else some []

/-- `PathBuf::pop`: truncate to the parent when it exists. -/
def popL (l : List Char) : List Char :=
  match parentL l with
  | some p => p
  | none => l

/-- `Path::ends_with("..")`: since the components of `".."` are the single
parent component, this is a last-component test. -/
def endsWithDotDot (l : List Char) : Bool :=
  decide ((componentsL l).getLast? = some Component.parentDir)

/-- Boolean component-list test used by `startsWithL`. -/
def compLead : List Component → List Component → Bool
  | [], _ => true
  | _ :: _, [] => false
  | a :: as, b :: bs => if a = b then compLead as bs else false

/-- `Path::starts_with(base)`: the components of `base` lead the
components of the path. -/
def startsWithL (l base : List Char) : Bool :=
  compLead (componentsL base) (componentsL l)

/-- The error cases of a filesystem query; `read_link` collapses them all
(`if let Ok(v)`). -/
inductive FsError where
  | notFound
  | permissionDenied
  | ioError
  | notASymlink
deriving DecidableEq

/-- The filesystem oracle: symlink-target reads, existence tests and
canonicalization, exactly the three queries `secure_join` performs. -/
structure Fs where
  readLink : List Char → Except FsError (List Char)
  pathExists : List Char → Bool
  canonicalize : List Char → List Char

/-- One iteration of the inner loop over a relative symlink target
(`for it in v.iter()` in the source): push the sub-component; if the
result exists, canonicalize it and reset to `rootfs` unless the canonical
form starts with `rootfs`. -/
def relStep (fs : Fs) (rootfs p c : List Char) : List Char :=
  let p := pushL p c
  if fs.pathExists p then
    let cp := fs.canonicalize p
    if startsWithL cp rootfs then cp else rootfs
  else p

/-- One iteration of the outer loop of `secure_join`: skip a rooted
component; otherwise push it, expand a symlink (absolute target: raw
concatenation `rootfs ++ target`; relative target: undo the push and fold
`relStep` over the target components), and finally pop a trailing `..`. -/
def stepComp (fs : Fs) (rootfs path it : List Char) : List Char :=
  if isAbsoluteL it then path
  else
    let p := pushL path it
    let q :=
      match fs.readLink p with
      | Except.ok v =>
          if isAbsoluteL v then rootfs ++ v
          else (iterL v).foldl (relStep fs rootfs) (popL p)
      | Except.error _ => p
    if endsWithDotDot q then popL q else q

/-- `secure_join` on path text: start from `rootfs` with a trailing
separator and fold the outer step over the components of the untrusted
path. -/
def secureJoinL (fs : Fs) (rootfs unsafePath : List Char) : List Char :=
  (iterL unsafePath).foldl (stepComp fs rootfs) (rootfs ++ ['/'])

/-- The public `secure_join(rootfs, unsafe_path)` of the source. -/
def secure_join (fs : Fs) (rootfs unsafe_path : String) : String :=
  String.mk (secureJoinL fs rootfs.data unsafe_path.data)

/-- A filesystem on which every query fails: no entry exists, nothing is a
symlink.  This is the situation of the `rootfs_not_exist` tests. -/
def emptyFs : Fs where
  readLink := fun _ => Except.error FsError.notFound
  pathExists := fun _ => false
  canonicalize := fun p => p

/-- The plain-name components of a component list, in order. -/
def namesOf (cs : List Component) : List Seg :=
  cs.filterMap fun c =>
    match c with
    | Component.normal s => some s
    | _ => none

/-- A segment that parses to a normal component of itself and contains no
separator. -/
def plainSeg (s : Seg) : Prop :=
  bodySeg s = some (Component.normal s) ∧ '/' ∉ s

/-- The components a path with no leading `.` component can have. -/
def lexComp (c : Component) : Prop :=
  c = Component.rootDir ∨ c = Component.parentDir ∨
    ∃ s, c = Component.normal s ∧ plainSeg s

/-- Root text whose final raw segment survives component parsing (or the
empty root). -/
def goodRoot (l : List Char) : Bool :=
  if l = [] then true else realSeg ((splitSegs l).getLastD [])

/-- State invariant of the purely lexical walk (all `read_link` queries
fail): before the first plain name the working path is the initialized
`root ++ "/"`, or `root` itself once a `..` component was pushed and
popped; after the plain names `ns` it is `root`, a separator, and the
names joined. -/
def StInv (root : List Char) (ns : List Seg) (st : List Char) : Prop :=
  (ns = [] ∧ (st = root ++ ['/'] ∨ (root ≠ [] ∧ st = root))) ∨
  (ns ≠ [] ∧ st = root ++ '/' :: joinSegs ns)

/-- Oracle of the `relative softlink beyond container rootfs` test: the
root is a real directory `/tmp/x`, `1` under it is a symlink to
`../../../`, and `/tmp/x/..` exists and canonicalizes to `/tmp`. -/
def fsC1 : Fs where
  readLink := fun p =>
    if p = "/tmp/x/1".data then Except.ok "../../../".data
    else Except.error FsError.notFound
  pathExists := fun p => p = "/tmp/x/..".data
  canonicalize := fun p => if p = "/tmp/x/..".data then "/tmp".data else p

/-- Oracle of the absolute-symlink tests: `2` points at the nonexistent
`/dddd`, `3` points at `/`; nothing exists, and canonicalization is
adversarial so any consultation of it would corrupt the result. -/
def fsC2 : Fs where
  readLink := fun p =>
    if p = "/tmp/x/2".data then Except.ok "/dddd".data
    else if p = "/tmp/x/3".data then Except.ok "/".data
    else Except.error FsError.notFound
  pathExists := fun _ => false
  canonicalize := fun _ => "/QQQ".data

/-- Oracle with a relative symlink `1 -> ../y/z` through nonexistent
paths: the expanded `..` is buried under `y/z` and never trailing when the
outer `..` check runs. -/
def fsC4 : Fs where
  readLink := fun p =>
    if p = "/tmp/x/1".data then Except.ok "../y/z".data
    else Except.error FsError.notFound
  pathExists := fun _ => false
  canonicalize := fun p => p

/-- Adversarial oracle reporting the directory alias `/a/.` as a symlink
with relative target `b`; the undo-pop then strips `a` itself. -/
def fsDot : Fs where
  readLink := fun p =>
    if p = "/a/.".data then Except.ok "b".data
    else Except.error FsError.notFound
  pathExists := fun _ => false
  canonicalize := fun p => p

/-- A fully cyclic symlink oracle: every path reads as a symlink to `c`,
everything exists, canonicalization is the identity. -/
def fsCyc : Fs where
  readLink := fun _ => Except.ok "c".data
  pathExists := fun _ => true
  canonicalize := fun p => p

/-- `fsCyc` with symlink reading disabled, to witness that the inner
target-expansion loop never consults `read_link`. -/
def fsCycErr : Fs where
  readLink := fun _ => Except.error FsError.ioError
  pathExists := fun _ => true
  canonicalize := fun p => p

/-! ### Segment splitting and joining -/

theorem splitSegs_ne_nil (l : List Char) : splitSegs l ≠ [] := by
  induction l with
  | nil => simp [splitSegs]
  | cons c rest ih =>
    simp only [splitSegs]
    split
    · simp
    · split
      · simp
      · simp

theorem splitSegs_append (l m : List Char) :
    splitSegs (l ++ '/' :: m) = splitSegs l ++ splitSegs m := by
  induction l with
  | nil => simp [splitSegs]
  | cons c rest ih =>
    by_cases hc : c = '/'
    · subst hc
      simp [splitSegs, ih]
    · simp only [List.cons_append, splitSegs, if_neg hc]
      have ih' : splitSegs (rest.append ('/' :: m)) = splitSegs rest ++ splitSegs m := ih
      rw [ih']
      rcases h : splitSegs rest with _ | ⟨s, ss⟩
      · exact absurd h (splitSegs_ne_nil rest)
      · rfl

theorem mem_splitSegs_no_slash (l : List Char) (s : Seg) (hs : s ∈ splitSegs l) :
    '/' ∉ s := by
  induction l generalizing s with
  | nil =>
    simp only [splitSegs, List.mem_singleton] at hs
    subst hs; simp
  | cons c rest ih =>
    simp only [splitSegs] at hs
    by_cases hc : c = '/'
    · rw [if_pos hc] at hs
      rcases List.mem_cons.mp hs with h | h
      · subst h; simp
      · exact ih s h
    · rw [if_neg hc] at hs
      rcases hrest : splitSegs rest with _ | ⟨t, ts⟩
      · exact absurd hrest (splitSegs_ne_nil rest)
      · rw [hrest] at hs
        rcases List.mem_cons.mp hs with h | h
        · subst h
          intro hmem
          rcases List.mem_cons.mp hmem with h' | h'
          · exact hc h'.symm
          · have := ih t (hrest ▸ List.mem_cons_self t ts)
            exact this h'
        · exact ih s (hrest ▸ List.mem_cons_of_mem t h)

theorem splitSegs_of_no_slash (c : List Char) (hc : '/' ∉ c) : splitSegs c = [c] := by
  induction c with
  | nil => simp [splitSegs]
  | cons a rest ih =>
    have ha : a ≠ '/' := by
      intro h; exact hc (h ▸ List.mem_cons_self a rest)
    have hrest : '/' ∉ rest := fun h => hc (List.mem_cons_of_mem a h)
    simp only [splitSegs, if_neg ha, ih hrest]

theorem splitSegs_append_seg (l : List Char) (c : Seg) (hc : '/' ∉ c) :
    splitSegs (l ++ '/' :: c) = splitSegs l ++ [c] := by
  rw [splitSegs_append, splitSegs_of_no_slash c hc]

theorem joinSegs_cons (s : Seg) (A : List Seg) (hA : A ≠ []) :
    joinSegs (s :: A) = s ++ '/' :: joinSegs A := by
  rcases A with _ | ⟨t, ts⟩
  · exact absurd rfl hA
  · rfl

theorem joinSegs_splitSegs (l : List Char) : joinSegs (splitSegs l) = l := by
  induction l with
  | nil => rfl
  | cons c rest ih =>
    by_cases hc : c = '/'
    · subst hc
      rw [show splitSegs ('/' :: rest) = [] :: splitSegs rest from by
            simp [splitSegs],
          joinSegs_cons [] (splitSegs rest) (splitSegs_ne_nil rest), ih]
      rfl
    · simp only [splitSegs, if_neg hc]
      rcases hrest : splitSegs rest with _ | ⟨s, ss⟩
      · exact absurd hrest (splitSegs_ne_nil rest)
      · rw [hrest] at ih
        rcases ss with _ | ⟨t, ts⟩
        · simpa [joinSegs] using congrArg (c :: ·) ih
        · rw [joinSegs_cons (c :: s) (t :: ts) (by simp)]
          rw [joinSegs_cons s (t :: ts) (by simp)] at ih
          simpa using congrArg (c :: ·) ih

theorem splitSegs_joinSegs (A : List Seg) (hA : A ≠ [])
    (hs : ∀ s ∈ A, '/' ∉ s) : splitSegs (joinSegs A) = A := by
  induction A with
  | nil => exact absurd rfl hA
  | cons s rest ih =>
    rcases rest with _ | ⟨t, ts⟩
    · exact splitSegs_of_no_slash s (hs s (List.mem_cons_self s []))
    · rw [joinSegs_cons s (t :: ts) (by simp), splitSegs_append,
        splitSegs_of_no_slash s (hs s (List.mem_cons_self s (t :: ts))),
        ih (by simp) (fun u hu => hs u (List.mem_cons_of_mem s hu))]
      rfl

theorem joinSegs_concat (A : List Seg) (c : Seg) (hA : A ≠ []) :
    joinSegs (A ++ [c]) = joinSegs A ++ '/' :: c := by
  induction A with
  | nil => exact absurd rfl hA
  | cons s rest ih =>
    rcases rest with _ | ⟨t, ts⟩
    · rfl
    · rw [show (s :: t :: ts) ++ [c] = s :: ((t :: ts) ++ [c]) from rfl,
          joinSegs_cons s ((t :: ts) ++ [c]) (by simp),
          joinSegs_cons s (t :: ts) (by simp), ih (by simp)]
      simp

/-! ### The last-real-segment scan -/

theorem keepUpto_concat_real (A : List Seg) (c : Seg) (hc : realSeg c = true) :
    keepUptoLastReal (A ++ [c]) = some (A ++ [c]) := by
  induction A with
  | nil => simp [keepUptoLastReal, hc]
  | cons s rest ih => simp [keepUptoLastReal, ih]

theorem keepUpto_none (A : List Seg) (h : keepUptoLastReal A = none) :
    ∀ s ∈ A, realSeg s = false := by
  induction A with
  | nil => simp
  | cons s rest ih =>
    simp only [keepUptoLastReal] at h
    rcases hr : keepUptoLastReal rest with _ | ks
    · rw [hr] at h
      by_cases hs : realSeg s
      · rw [if_pos hs] at h; cases h
      · intro u hu
        rcases List.mem_cons.mp hu with h' | h'
        · subst h'; simpa using hs
        · exact ih hr u h'
    · rw [hr] at h; cases h

theorem keepUpto_spec (A : List Seg) (ks : List Seg)
    (h : keepUptoLastReal A = some ks) :
    (∃ t, A = ks ++ t ∧ ∀ s ∈ t, realSeg s = false) ∧
      ∃ B c, ks = B ++ [c] ∧ realSeg c = true := by
  induction A generalizing ks with
  | nil => simp [keepUptoLastReal] at h
  | cons s rest ih =>
    simp only [keepUptoLastReal] at h
    rcases hr : keepUptoLastReal rest with _ | ks'
    · rw [hr] at h
      by_cases hs : realSeg s
      · rw [if_pos hs] at h
        injection h with h; subst h
        exact ⟨⟨rest, rfl, keepUpto_none rest hr⟩, [], s, rfl, hs⟩
      · rw [if_neg hs] at h; cases h
    · rw [hr] at h
      injection h with h; subst h
      obtain ⟨⟨t, ht, htall⟩, B, c, hB, hc⟩ := ih ks' hr
      exact ⟨⟨t, by rw [ht]; rfl, htall⟩, s :: B, c, by rw [hB]; rfl, hc⟩

/-! ### Head-segment characterizations of the leading components -/

theorem isAbsolute_iff_segs (l : List Char) :
    isAbsoluteL l = true ↔ ∃ S, splitSegs l = [] :: S ∧ S ≠ [] := by
  rcases l with _ | ⟨c, r⟩
  · constructor
    · intro h; simp [isAbsoluteL] at h
    · rintro ⟨S, h1, h2⟩
      rw [show splitSegs [] = [[]] from rfl] at h1
      injection h1 with h1a h1b
      exact absurd h1b.symm h2
  · by_cases hc : c = '/'
    · subst hc
      constructor
      · intro _
        exact ⟨splitSegs r, by simp [splitSegs], splitSegs_ne_nil r⟩
      · intro _; rfl
    · constructor
      · intro h
        simp [isAbsoluteL, hc] at h
      · rintro ⟨S, h1, h2⟩
        rw [show splitSegs (c :: r) =
              match splitSegs r with
              | [] => [[c]]
              | s :: ss => (c :: s) :: ss from by simp [splitSegs, hc]] at h1
        rcases hr : splitSegs r with _ | ⟨s, ss⟩
        · exact absurd hr (splitSegs_ne_nil r)
        · rw [hr] at h1
          injection h1 with h1a h1b
          cases h1a

theorem splitSegs_cons_ne (c : Char) (r : List Char) (hc : c ≠ '/') :
    ∃ s ss, splitSegs r = s :: ss ∧ splitSegs (c :: r) = (c :: s) :: ss := by
  rcases hr : splitSegs r with _ | ⟨s, ss⟩
  · exact absurd hr (splitSegs_ne_nil r)
  · exact ⟨s, ss, rfl, by simp [splitSegs, hc, hr]⟩

theorem splitSegs_head_nil (r : List Char) (ss : List Seg)
    (h : splitSegs r = [] :: ss) : r = [] ∨ ∃ r2, r = '/' :: r2 := by
  rcases r with _ | ⟨a, r2⟩
  · exact Or.inl rfl
  · by_cases ha : a = '/'
    · exact Or.inr ⟨r2, by rw [ha]⟩
    · obtain ⟨s, ss', _, hcons⟩ := splitSegs_cons_ne a r2 ha
      rw [hcons] at h
      injection h with h1 _
      cases h1

theorem includeCurDir_eq (l : List Char) (habs : isAbsoluteL l = false) :
    includeCurDirL l = decide (l = ['.'] ∨ l.take 2 = ['.', '/']) := by
  unfold includeCurDirL
  rw [habs]
  by_cases h : l = ['.'] ∨ l.take 2 = ['.', '/']
  · simp [h]
  · simp [h]

theorem includeCurDir_iff_segs (l : List Char) :
    includeCurDirL l = true ↔ (splitSegs l).head? = some ['.'] := by
  rcases l with _ | ⟨c, r⟩
  · simp [includeCurDirL, isAbsoluteL, splitSegs]
  · by_cases hc : c = '/'
    · subst hc
      have h1 : splitSegs ('/' :: r) = [] :: splitSegs r := by simp [splitSegs]
      simp [includeCurDirL, isAbsoluteL, h1]
    · have habs : isAbsoluteL (c :: r) = false := by simp [isAbsoluteL, hc]
      obtain ⟨s, ss, hs, hcons⟩ := splitSegs_cons_ne c r hc
      rw [includeCurDir_eq _ habs, hcons, decide_eq_true_eq]
      simp only [List.head?_cons, Option.some.injEq]
      constructor
      · intro h
        rcases h with h | h
        · injection h with h1 h2
          subst h1; subst h2
          rw [show splitSegs ([] : List Char) = [[]] from rfl] at hs
          injection hs with hsa _
          rw [← hsa]
        · rw [show (c :: r).take 2 = c :: r.take 1 from rfl] at h
          injection h with h1 h2
          subst h1
          rcases r with _ | ⟨b, r2⟩
          · cases h2
          · rw [show (b :: r2).take 1 = [b] from rfl] at h2
            injection h2 with h2a _
            subst h2a
            rw [show splitSegs ('/' :: r2) = [] :: splitSegs r2 from by
                  simp [splitSegs]] at hs
            injection hs with hsa _
            rw [← hsa]
      · intro h
        injection h with h1 h2
        subst h1
        rcases splitSegs_head_nil r ss (h2 ▸ hs) with h' | ⟨r2, h'⟩
        · subst h'; exact Or.inl rfl
        · subst h'; exact Or.inr rfl

/-! ### Components of concatenations, pushes and pops -/

theorem bodySeg_ne_curDir (s : Seg) : bodySeg s ≠ some Component.curDir := by
  unfold bodySeg
  split
  · simp
  · split <;> simp

theorem bodySeg_ne_rootDir (s : Seg) : bodySeg s ≠ some Component.rootDir := by
  unfold bodySeg
  split
  · simp
  · split <;> simp

theorem bodySeg_normal (s t : Seg) (h : bodySeg s = some (Component.normal t)) :
    t = s := by
  unfold bodySeg at h
  split at h
  · simp at h
  · split at h
    · simp at h
    · simp at h; exact h.symm

theorem comps_getLast (l : List Char) (S : List Seg) (c : Seg) (k : Component)
    (hsplit : splitSegs l = S ++ [c]) (hc : bodySeg c = some k) :
    (componentsL l).getLast? = some k := by
  unfold componentsL
  rw [hsplit, List.filterMap_append]
  have h1 : List.filterMap bodySeg [c] = [k] := by simp [List.filterMap, hc]
  rw [h1, List.getLast?_append_of_ne_nil _ (by simp : (List.filterMap bodySeg S ++ [k]) ≠ []),
    List.getLast?_concat]

theorem isAbsolute_append (l m : List Char) (hl : l ≠ []) :
    isAbsoluteL (l ++ m) = isAbsoluteL l := by
  rcases l with _ | ⟨c, r⟩
  · exact absurd rfl hl
  · rfl

theorem bool_not_true (b : Bool) (h : ¬b = true) : b = false := by
  revert h; cases b <;> simp

theorem includeCurDir_append_slash (l m : List Char) (hl : l ≠ []) :
    includeCurDirL (l ++ '/' :: m) = includeCurDirL l := by
  by_cases habs : isAbsoluteL l = true
  · have habs2 : isAbsoluteL (l ++ '/' :: m) = true := by
      rw [isAbsolute_append l _ hl]; exact habs
    simp [includeCurDirL, habs, habs2]
  · have habs' := bool_not_true _ habs
    have habs2 : isAbsoluteL (l ++ '/' :: m) = false := by
      rw [isAbsolute_append l _ hl]; exact habs'
    rw [includeCurDir_eq _ habs2, includeCurDir_eq _ habs', decide_eq_decide]
    rcases l with _ | ⟨a, r⟩
    · exact absurd rfl hl
    · rcases r with _ | ⟨b, r2⟩
      · constructor
        · rintro (h | h)
          · simp at h
          · rw [show ([a] ++ '/' :: m).take 2 = [a, '/'] from rfl] at h
            injection h with h1 _
            exact Or.inl (by rw [h1])
        · rintro (h | h)
          · injection h with h1 h2
            exact Or.inr (by rw [h1]; rfl)
          · simp [List.take] at h
      · simp [List.take]

theorem includeCurDir_append_of_slash_end (l m : List Char)
    (hend : l.getLast? = some '/') :
    includeCurDirL (l ++ m) = includeCurDirL l := by
  rcases l with _ | ⟨a, r⟩
  · cases hend
  · rcases r with _ | ⟨b, r2⟩
    · have ha : a = '/' := by simpa using hend
      subst ha
      simp [includeCurDirL, isAbsoluteL]
    · by_cases habs : isAbsoluteL (a :: b :: r2) = true
      · have habs2 : isAbsoluteL (a :: b :: (r2 ++ m)) = true := habs
        simp [includeCurDirL, habs, habs2]
      · have habs' := bool_not_true _ habs
        have habs2 : isAbsoluteL ((a :: b :: r2) ++ m) = false := habs'
        rw [includeCurDir_eq _ habs2, includeCurDir_eq _ habs', decide_eq_decide]
        simp [List.take]

theorem pushL_slash_end (l p : List Char) (hp : isAbsoluteL p = false)
    (hend : l.getLast? = some '/') : pushL l p = l ++ p := by
  have hl : l ≠ [] := by rintro rfl; cases hend
  simp [pushL, hp, hl, hend]

theorem pushL_sep (l p : List Char) (hp : isAbsoluteL p = false)
    (hl : l ≠ []) (hend : l.getLast? ≠ some '/') :
    pushL l p = l ++ '/' :: p := by
  simp [pushL, hp, hl, hend]

theorem pushL_after_slash (root p : List Char) (hp : isAbsoluteL p = false) :
    pushL (root ++ ['/']) p = root ++ '/' :: p := by
  rw [pushL_slash_end _ p hp (List.getLast?_concat root)]
  simp

theorem getLast?_of_splitSegs_concat (l : List Char) (S : List Seg) (c : Seg)
    (hsplit : splitSegs l = S ++ [c]) (hc : c ≠ []) :
    l.getLast? = c.getLast? := by
  have hl : l = joinSegs (S ++ [c]) := by rw [← hsplit, joinSegs_splitSegs]
  rcases S with _ | ⟨s0, S'⟩
  · rw [hl]; rfl
  · rw [joinSegs_concat _ c (by simp)] at hl
    rw [hl, List.getLast?_append_cons]
    rcases c with _ | ⟨a, c'⟩
    · exact absurd rfl hc
    · exact List.getLast?_cons_cons

theorem realSeg_ne_nil (c : Seg) (hc : realSeg c = true) : c ≠ [] := by
  rintro rfl
  simp [realSeg, bodySeg] at hc

theorem getLast_of_real_end (l : List Char) (S : List Seg) (c : Seg)
    (hsplit : splitSegs l = S ++ [c]) (hc : realSeg c = true) :
    l ≠ [] ∧ l.getLast? ≠ some '/' := by
  have hcne : c ≠ [] := realSeg_ne_nil c hc
  have hslash : '/' ∉ c :=
    mem_splitSegs_no_slash l c (hsplit ▸ List.mem_append_right S (List.mem_singleton_self c))
  have hlast : l.getLast? = c.getLast? := getLast?_of_splitSegs_concat l S c hsplit hcne
  constructor
  · rintro rfl
    rw [show splitSegs [] = [[]] from rfl] at hsplit
    rcases S with _ | ⟨s0, S'⟩
    · injection hsplit with h1 _
      exact hcne h1.symm
    · injection hsplit with _ h2
      exact absurd h2.symm (by simp)
  · rw [hlast, List.getLast?_eq_getLast_of_ne_nil hcne]
    intro h
    injection h with h
    exact hslash (h ▸ List.getLast_mem hcne)

theorem pushL_real_end (l p : List Char) (S : List Seg) (c : Seg)
    (hsplit : splitSegs l = S ++ [c]) (hc : realSeg c = true)
    (hp : isAbsoluteL p = false) :
    pushL l p = l ++ '/' :: p := by
  obtain ⟨h1, h2⟩ := getLast_of_real_end l S c hsplit hc
  exact pushL_sep l p hp h1 h2

theorem parentL_main (l : List Char) (k : Component) (ks : List Seg)
    (hlast : (componentsL l).getLast? = some k)
    (hk : k = Component.parentDir ∨ ∃ s, k = Component.normal s)
    (hkeep : keepUptoLastReal (splitSegs l) = some ks) :
    parentL l =
      match keepUptoLastReal ks.dropLast with
      | some ks2 => some (joinSegs ks2)
      | none =>
        if includeCurDirL l then some ['.']
        else if isAbsoluteL l then some ['/'] else some [] := by
  unfold parentL
  rw [hlast, hkeep]
  rcases hk with h | ⟨s, h⟩ <;> subst h <;> rfl

theorem popL_pushL_dotdot (l : List Char) (S : List Seg) (c : Seg)
    (hsplit : splitSegs l = S ++ [c]) (hc : realSeg c = true) :
    popL (l ++ '/' :: ['.', '.']) = l := by
  have hs2 : splitSegs (l ++ '/' :: ['.', '.']) = splitSegs l ++ [['.', '.']] :=
    splitSegs_append_seg l ['.', '.'] (by decide)
  have hlast : (componentsL (l ++ '/' :: ['.', '.'])).getLast? = some Component.parentDir :=
    comps_getLast _ (splitSegs l) ['.', '.'] _ hs2 (by decide)
  have hkeepl : keepUptoLastReal (splitSegs l) = some (splitSegs l) := by
    rw [hsplit]; exact keepUpto_concat_real S c hc
  have hpar := parentL_main (l ++ '/' :: ['.', '.']) Component.parentDir
    (splitSegs l ++ [['.', '.']]) hlast (Or.inl rfl)
    (by rw [hs2]; exact keepUpto_concat_real (splitSegs l) ['.', '.'] (by decide))
  have hpar2 : parentL (l ++ '/' :: ['.', '.']) = some (joinSegs (splitSegs l)) := by
    rw [hpar, List.dropLast_concat, hkeepl]
  unfold popL
  rw [hpar2]
  exact joinSegs_splitSegs l

/-! ### The purely lexical walk -/

theorem isAbsolute_of_no_slash (s : Seg) (h : '/' ∉ s) : isAbsoluteL s = false := by
  rcases s with _ | ⟨a, r⟩
  · rfl
  · have : a ≠ '/' := fun ha => h (ha ▸ List.mem_cons_self a r)
    simp [isAbsoluteL, this]

theorem stepComp_noLink (fs : Fs) (root st it : List Char)
    (habs : isAbsoluteL it = false)
    (herr : (fs.readLink (pushL st it)).toOption = none) :
    stepComp fs root st it =
      if endsWithDotDot (pushL st it) then popL (pushL st it)
      else pushL st it := by
  unfold stepComp
  rw [habs]
  rcases h : fs.readLink (pushL st it) with e | v
  · simp [h]
  · rw [h] at herr
    simp [Except.toOption] at herr

theorem splitSegs_state (root : List Char) (ns : List Seg) (hns : ns ≠ [])
    (hslash : ∀ s ∈ ns, '/' ∉ s) :
    splitSegs (root ++ '/' :: joinSegs ns) = splitSegs root ++ ns := by
  rw [splitSegs_append, splitSegs_joinSegs ns hns hslash]

theorem goodRoot_cases (l : List Char) (h : goodRoot l = true) :
    l = [] ∨ ∃ S c, splitSegs l = S ++ [c] ∧ realSeg c = true := by
  by_cases hl : l = []
  · exact Or.inl hl
  · right
    unfold goodRoot at h
    rw [if_neg hl] at h
    rcases List.eq_nil_or_concat' (splitSegs l) with h2 | ⟨S, c, h2⟩
    · exact absurd h2 (splitSegs_ne_nil l)
    · refine ⟨S, c, h2, ?_⟩
      rw [h2, List.getLastD_concat] at h
      exact h

theorem comps_lex (u : List Char) (hincl : includeCurDirL u = false) :
    ∀ c ∈ componentsL u, lexComp c := by
  intro c hc
  unfold componentsL at hc
  rw [hincl] at hc
  simp only [Bool.false_eq_true, if_false, List.append_nil, List.nil_append] at hc
  rcases List.mem_append.mp hc with h | h
  · left
    split at h
    · simpa using h
    · simp at h
  · right
    obtain ⟨s, hsmem, hbody⟩ := List.mem_filterMap.mp h
    have hslash : '/' ∉ s := mem_splitSegs_no_slash u s hsmem
    unfold bodySeg at hbody
    split at hbody
    · cases hbody
    · split at hbody
      · injection hbody with hbody
        exact Or.inl hbody.symm
      · injection hbody with hbody
        exact Or.inr ⟨s, hbody.symm, by unfold plainSeg bodySeg; simp_all⟩

theorem stepComp_rootDir (fs : Fs) (root st : List Char) :
    stepComp fs root st ['/'] = st := rfl

theorem stepLex (fs : Fs) (root : List Char)
    (hfs : ∀ p, (fs.readLink p).toOption = none)
    (hroot : root = [] ∨ ∃ S c, splitSegs root = S ++ [c] ∧ realSeg c = true)
    (c : Component) (hc : lexComp c)
    (ns : List Seg) (hns : ∀ s ∈ ns, plainSeg s)
    (st : List Char) (hst : StInv root ns st) :
    StInv root (ns ++ namesOf [c]) (stepComp fs root st (compChars c)) ∧
      ∀ s ∈ ns ++ namesOf [c], plainSeg s := by
  rcases hc with hc | hc | ⟨s, hc, hplain⟩
  · -- root component: skipped, nothing appended
    subst hc
    rw [show compChars Component.rootDir = ['/'] from rfl, stepComp_rootDir]
    rw [show namesOf [Component.rootDir] = [] from rfl, List.append_nil]
    exact ⟨hst, hns⟩
  · -- `..` component: pushed, then immediately popped by the trailing check
    subst hc
    rw [show compChars Component.parentDir = ['.', '.'] from rfl]
    rw [stepComp_noLink fs root st ['.', '.'] (by decide) (hfs _)]
    rw [show namesOf [Component.parentDir] = [] from rfl, List.append_nil]
    refine ⟨?_, hns⟩
    rcases hst with ⟨hns0, hsts⟩ | ⟨hns0, hsts⟩
    · rcases hsts with hsts | ⟨hrne, hsts⟩
      · -- st = root ++ "/"
        subst hsts
        rcases hroot with hr | ⟨S, c0, hS, hreal⟩
        · -- empty root: the state is "/", and "/.." pops back to "/"
          subst hr
          exact Or.inl ⟨hns0, Or.inl (by decide)⟩
        · have hpush : pushL (root ++ ['/']) ['.', '.'] = root ++ '/' :: ['.', '.'] :=
            pushL_after_slash root ['.', '.'] (by decide)
          rw [hpush]
          have hs2 : splitSegs (root ++ '/' :: ['.', '.']) = splitSegs root ++ [['.', '.']] :=
            splitSegs_append_seg root ['.', '.'] (by decide)
          have hlast : (componentsL (root ++ '/' :: ['.', '.'])).getLast? =
              some Component.parentDir :=
            comps_getLast _ (splitSegs root) ['.', '.'] _ hs2 (by decide)
          rw [if_pos (by unfold endsWithDotDot; rw [hlast]; decide),
            popL_pushL_dotdot root S c0 hS hreal]
          have hrne : root ≠ [] := by
            rintro rfl
            rw [show splitSegs [] = [[]] from rfl] at hS
            rcases S with _ | ⟨s0, S'⟩
            · injection hS with h1 _
              exact realSeg_ne_nil c0 hreal h1.symm
            · injection hS with _ h2
              exact absurd h2.symm (by simp)
          exact Or.inl ⟨hns0, Or.inr ⟨hrne, rfl⟩⟩
      · -- st = root (nonempty)
        rw [hsts]
        rcases hroot with hr | ⟨S, c0, hS, hreal⟩
        · exact absurd hr hrne
        · rw [pushL_real_end root ['.', '.'] S c0 hS hreal (by decide)]
          have hs2 : splitSegs (root ++ '/' :: ['.', '.']) = splitSegs root ++ [['.', '.']] :=
            splitSegs_append_seg root ['.', '.'] (by decide)
          have hlast : (componentsL (root ++ '/' :: ['.', '.'])).getLast? =
              some Component.parentDir :=
            comps_getLast _ (splitSegs root) ['.', '.'] _ hs2 (by decide)
          rw [if_pos (by unfold endsWithDotDot; rw [hlast]; decide),
            popL_pushL_dotdot root S c0 hS hreal]
          exact Or.inl ⟨hns0, Or.inr ⟨hrne, rfl⟩⟩
    · -- st = root / names
      subst hsts
      obtain ⟨ns0, nl, hdecomp⟩ :
          ∃ ns0 nl, ns = ns0 ++ [nl] := by
        rcases List.eq_nil_or_concat' ns with h | ⟨ns0, nl, h⟩
        · exact absurd h hns0
        · exact ⟨ns0, nl, h⟩
      have hnl : plainSeg nl := hns nl (hdecomp ▸ List.mem_append_right ns0 (List.mem_singleton_self nl))
      have hsplit : splitSegs (root ++ '/' :: joinSegs ns) =
          (splitSegs root ++ ns0) ++ [nl] := by
        rw [splitSegs_state root ns hns0 (fun u hu => (hns u hu).2), hdecomp,
          List.append_assoc]
      have hrealnl : realSeg nl = true := by
        unfold realSeg
        rw [hnl.1]
        rfl
      rw [pushL_real_end _ ['.', '.'] _ nl hsplit hrealnl (by decide)]
      have hs2 : splitSegs ((root ++ '/' :: joinSegs ns) ++ '/' :: ['.', '.']) =
          splitSegs (root ++ '/' :: joinSegs ns) ++ [['.', '.']] :=
        splitSegs_append_seg _ ['.', '.'] (by decide)
      have hlast : (componentsL ((root ++ '/' :: joinSegs ns) ++ '/' :: ['.', '.'])).getLast? =
          some Component.parentDir :=
        comps_getLast _ _ ['.', '.'] _ hs2 (by decide)
      rw [if_pos (by unfold endsWithDotDot; rw [hlast]; decide),
        popL_pushL_dotdot _ _ nl hsplit hrealnl]
      exact Or.inr ⟨hns0, rfl⟩
  · -- plain name component: appended, never popped
    subst hc
    rw [show compChars (Component.normal s) = s from rfl]
    have hsslash : '/' ∉ s := hplain.2
    have hsabs : isAbsoluteL s = false := isAbsolute_of_no_slash s hsslash
    rw [stepComp_noLink fs root st s hsabs (hfs _)]
    have hnames : namesOf [Component.normal s] = [s] := rfl
    have hreals : realSeg s = true := by
      unfold realSeg
      rw [hplain.1]
      rfl
    have key : pushL st s = root ++ '/' :: joinSegs (ns ++ [s]) ∧
        splitSegs (pushL st s) = (splitSegs root ++ ns) ++ [s] := by
      rcases hst with ⟨hns0, hsts⟩ | ⟨hns0, hsts⟩
      · subst hns0
        rcases hsts with hsts | ⟨hrne, hsts⟩
        · subst hsts
          rw [pushL_after_slash root s hsabs]
          refine ⟨rfl, ?_⟩
          rw [splitSegs_append_seg root s hsslash]
          simp
        · rw [hsts]
          rcases hroot with hr | ⟨S, c0, hS, hreal⟩
          · exact absurd hr hrne
          · rw [pushL_real_end root s S c0 hS hreal hsabs]
            refine ⟨rfl, ?_⟩
            rw [splitSegs_append_seg root s hsslash]
            simp
      · subst hsts
        obtain ⟨ns0, nl, hdecomp⟩ :
            ∃ ns0 nl, ns = ns0 ++ [nl] := by
          rcases List.eq_nil_or_concat' ns with h | ⟨ns0, nl, h⟩
          · exact absurd h hns0
          · exact ⟨ns0, nl, h⟩
        have hnl : plainSeg nl := hns nl (hdecomp ▸ List.mem_append_right ns0 (List.mem_singleton_self nl))
        have hsplit : splitSegs (root ++ '/' :: joinSegs ns) =
            (splitSegs root ++ ns0) ++ [nl] := by
          rw [splitSegs_state root ns hns0 (fun u hu => (hns u hu).2), hdecomp,
            List.append_assoc]
        have hrealnl : realSeg nl = true := by
          unfold realSeg
          rw [hnl.1]
          rfl
        rw [pushL_real_end _ s _ nl hsplit hrealnl hsabs]
        constructor
        · rw [List.append_assoc, joinSegs_concat ns s hns0]
          rfl
        · rw [show (root ++ '/' :: joinSegs ns) ++ '/' :: s =
              root ++ '/' :: (joinSegs ns ++ '/' :: s) from by simp,
            ← joinSegs_concat ns s hns0,
            splitSegs_state root (ns ++ [s]) (by simp)
              (by
                intro u hu
                rcases List.mem_append.mp hu with h' | h'
                · exact (hns u h').2
                · rw [List.mem_singleton.mp h']
                  exact hsslash)]
          rw [hdecomp]
          simp [List.append_assoc]
      -- end key
    have hlast : (componentsL (pushL st s)).getLast? = some (Component.normal s) :=
      comps_getLast _ (splitSegs root ++ ns) s _ key.2 hplain.1
    have hend : endsWithDotDot (pushL st s) = false := by
      unfold endsWithDotDot
      rw [hlast]
      simp
    rw [hend]
    simp only [Bool.false_eq_true, if_false]
    rw [hnames]
    refine ⟨Or.inr ⟨by simp, key.1⟩, ?_⟩
    intro u hu
    rcases List.mem_append.mp hu with h' | h'
    · exact hns u h'
    · rw [List.mem_singleton.mp h']
      exact hplain

theorem namesOf_cons (c : Component) (cs : List Component) :
    namesOf (c :: cs) = namesOf [c] ++ namesOf cs := by
  unfold namesOf
  rcases c <;> simp [List.filterMap_cons]

theorem foldLex (fs : Fs) (root : List Char)
    (hfs : ∀ p, (fs.readLink p).toOption = none)
    (hroot : root = [] ∨ ∃ S c, splitSegs root = S ++ [c] ∧ realSeg c = true) :
    ∀ (cs : List Component), (∀ c ∈ cs, lexComp c) →
      ∀ (ns : List Seg) (st : List Char), (∀ s ∈ ns, plainSeg s) → StInv root ns st →
      StInv root (ns ++ namesOf cs)
        (cs.foldl (fun acc c => stepComp fs root acc (compChars c)) st) := by
  intro cs
  induction cs with
  | nil =>
    intro _ ns st hns hst
    simpa [namesOf] using hst
  | cons c cs ih =>
    intro hlex ns st hns hst
    obtain ⟨hst2, hns2⟩ :=
      stepLex fs root hfs hroot c (hlex c (List.mem_cons_self c cs)) ns hns st hst
    have h2 := ih (fun d hd => hlex d (List.mem_cons_of_mem c hd))
      (ns ++ namesOf [c]) _ hns2 hst2
    rw [namesOf_cons, ← List.append_assoc]
    exact h2

theorem secureJoinL_eq_fold (fs : Fs) (root u : List Char) :
    secureJoinL fs root u =
      (componentsL u).foldl (fun acc c => stepComp fs root acc (compChars c))
        (root ++ ['/']) := by
  unfold secureJoinL iterL
  rw [List.foldl_map]

theorem secureJoin_lexical (fs : Fs) (root u : List Char)
    (hfs : ∀ p, (fs.readLink p).toOption = none)
    (hroot : goodRoot root = true)
    (hincl : includeCurDirL u = false)
    (hnames : namesOf (componentsL u) ≠ []) :
    secureJoinL fs root u = root ++ '/' :: joinSegs (namesOf (componentsL u)) := by
  rw [secureJoinL_eq_fold]
  have h := foldLex fs root hfs (goodRoot_cases root hroot) (componentsL u)
    (comps_lex u hincl) [] (root ++ ['/']) (by simp) (Or.inl ⟨rfl, Or.inl rfl⟩)
  rw [List.nil_append] at h
  rcases h with ⟨h1, _⟩ | ⟨_, h2⟩
  · exact absurd h1 hnames
  · exact h2

theorem namesOf_plain (cs : List Component) (h : ∀ c ∈ cs, lexComp c) :
    ∀ s ∈ namesOf cs, plainSeg s := by
  intro s hs
  unfold namesOf at hs
  obtain ⟨c, hcmem, hc⟩ := List.mem_filterMap.mp hs
  rcases h c hcmem with h2 | h2 | ⟨t, h2, hplain⟩ <;> subst h2
  · cases hc
  · cases hc
  · injection hc with hc
    subst hc
    exact hplain

theorem filterMap_bodySeg_plain (ns : List Seg) (hplain : ∀ s ∈ ns, plainSeg s) :
    List.filterMap bodySeg ns = ns.map Component.normal := by
  induction ns with
  | nil => rfl
  | cons s rest ih =>
    rw [List.filterMap_cons, (hplain s (List.mem_cons_self s rest)).1, List.map_cons,
      ih (fun u hu => hplain u (List.mem_cons_of_mem s hu))]

theorem comps_abs_names (ns : List Seg) (hns : ns ≠ [])
    (hplain : ∀ s ∈ ns, plainSeg s) :
    componentsL ('/' :: joinSegs ns) = Component.rootDir :: ns.map Component.normal := by
  have hsplit : splitSegs ('/' :: joinSegs ns) = [] :: ns := by
    rw [show ('/' :: joinSegs ns) = [] ++ '/' :: joinSegs ns from rfl, splitSegs_append,
      splitSegs_joinSegs ns hns (fun s hs => (hplain s hs).2)]
    rfl
  unfold componentsL
  rw [hsplit]
  rw [show isAbsoluteL ('/' :: joinSegs ns) = true from rfl,
    show includeCurDirL ('/' :: joinSegs ns) = false from rfl]
  rw [List.filterMap_cons]
  rw [show bodySeg [] = none from rfl, filterMap_bodySeg_plain ns hplain]
  simp

theorem namesOf_map_normal (ns : List Seg) :
    namesOf (Component.rootDir :: ns.map Component.normal) = ns := by
  unfold namesOf
  rw [List.filterMap_cons]
  induction ns with
  | nil => rfl
  | cons s rest ih => simpa [List.filterMap_cons] using ih

theorem string_mk_data (s : String) : String.mk s.data = s := rfl


/-! ### Claim theorems -/

/-- C1: for the real temp-directory scenario — root `/tmp/x` exists, `1`
under it is a relative symlink to `../../../`, each expansion step exists
and canonicalizes above the root — resolution clamps the escape and
returns exactly the root, with no error: every appended sub-component is
canonicalized, fails the `starts_with` containment test, and resets the
working path to exactly the root. -/
theorem C1_relative_symlink_clamped :
    secure_join fsC1 "/tmp/x" "1" = "/tmp/x" ∧
      relStep fsC1 "/tmp/x".data "/tmp/x".data "..".data = "/tmp/x".data := by
  constructor
  · decide
  · decide

/-- C2: an absolute symlink target is handled by raw string concatenation
`rootfs ++ target` with no existence or canonicalization query — on
`fsC2` nothing exists and `canonicalize` is adversarial, yet the results
are the plain concatenations `/tmp/x/dddd` and `/tmp/x/`. -/
theorem C2_absolute_symlink_concat :
    secure_join fsC2 "/tmp/x" "2" = "/tmp/x/dddd" ∧
      secure_join fsC2 "/tmp/x" "3" = "/tmp/x/" := by
  constructor
  · decide
  · decide

/-- C3 counterexample: the lexical claim fails as universally stated.  A
leading `.` component is pushed and survives verbatim in the output
(`./a` resolves to `/home/rootfs/./a`, not `/home/rootfs/a`), and a root
whose final segment is `.` loses that segment to the trailing-`..` pop
(`/a/.` with `../b` resolves to `/a/b`, not `/a/./b`). -/
theorem C3_counterexample :
    (secure_join emptyFs "/home/rootfs" "./a" ≠ "/home/rootfs/a" ∧
      secure_join emptyFs "/home/rootfs" "./a" = "/home/rootfs/./a") ∧
    (secure_join emptyFs "/a/." "../b" ≠ "/a/./b" ∧
      secure_join emptyFs "/a/." "../b" = "/a/b") := by
  refine ⟨⟨by decide, by decide⟩, by decide, by decide⟩

/-- C3 (amended): for every untrusted path built from `..` and plain
names with no leading `.` component and at least one name, when every
`read_link` query fails (in particular when the root does not exist) and
the root's final raw segment is a plain segment (or the root is empty),
the result is exactly the root, a separator, and the plain-name
components joined in order — all `..` components vanish. -/
theorem C3_lexical_amended (fs : Fs) (root untrusted : String)
    (hfs : ∀ p, (fs.readLink p).toOption = none)
    (hroot : goodRoot root.data = true)
    (hincl : includeCurDirL untrusted.data = false)
    (hnames : namesOf (componentsL untrusted.data) ≠ []) :
    secure_join fs root untrusted =
      String.mk (root.data ++ '/' :: joinSegs (namesOf (componentsL untrusted.data))) := by
  unfold secure_join
  rw [secureJoin_lexical fs root.data untrusted.data hfs hroot hincl hnames]

/-- C3 witness: the amended theorem applied to the `skip any ..` test of
the source evaluates to the expected `/home/rootfs/a/b/c`. -/
theorem C3_lexical_amended_witness :
    secure_join emptyFs "/home/rootfs" "../../../a/../../b/../../c" =
      String.mk ("/home/rootfs".data ++ '/' ::
        joinSegs (namesOf (componentsL "../../../a/../../b/../../c".data))) ∧
    String.mk ("/home/rootfs".data ++ '/' ::
        joinSegs (namesOf (componentsL "../../../a/../../b/../../c".data))) =
      "/home/rootfs/a/b/c" := by
  constructor
  · exact C3_lexical_amended emptyFs "/home/rootfs" "../../../a/../../b/../../c"
      (fun p => rfl) (by decide) (by decide) (by decide)
  · decide

/-- C4: the trailing-`..` pop is position-dependent: for a relative
symlink target `../y/z` through nonexistent paths, the expanded `..` is
no longer the trailing component when the per-component check runs, so a
literal `..` survives into the returned string. -/
theorem C4_dotdot_survives :
    secure_join fsC4 "/tmp/x" "1" = "/tmp/x/../y/z" ∧
      Component.parentDir ∈ componentsL (secure_join fsC4 "/tmp/x" "1").data := by
  constructor
  · decide
  · decide

/-- C10: an empty untrusted path yields exactly the initialized working
path, the root with a trailing separator, on every filesystem; in
particular both inputs empty yield `/`. -/
theorem C10_empty_untrusted :
    (∀ (fs : Fs) (root : String), secure_join fs root "" = root ++ "/") ∧
      secure_join emptyFs "" "" = "/" := by
  constructor
  · intro fs root
    obtain ⟨rd⟩ := root
    rfl
  · decide


/-- C5: `secure_join` never propagates a filesystem failure: whatever
error `read_link` returns (absence, permission denial, I/O failure,
not-a-symlink), the iteration proceeds exactly as if there were no
symlink — the plainly appended component, then the trailing-`..` check —
and never aborts resolution.  (The only panic of the source, a
malformed-encoding `to_str` failure, has no counterpart in this model:
Lean strings are always valid text.) -/
theorem C5_error_free (fs : Fs) (root st it : List Char) (e : FsError)
    (habs : isAbsoluteL it = false)
    (herr : fs.readLink (pushL st it) = Except.error e) :
    stepComp fs root st it =
      if endsWithDotDot (pushL st it) then popL (pushL st it)
      else pushL st it :=
  stepComp_noLink fs root st it habs (by rw [herr]; rfl)

/-- C5 witness: on `emptyFs` (every query `notFound`) one outer step on
component `a` is the plain append. -/
theorem C5_error_free_witness :
    stepComp emptyFs "/r".data "/r/".data "a".data =
      if endsWithDotDot (pushL "/r/".data "a".data) then popL (pushL "/r/".data "a".data)
      else pushL "/r/".data "a".data :=
  C5_error_free emptyFs "/r".data "/r/".data "a".data FsError.notFound (by decide) rfl

/-- C8: a rooted component (the bare separator) is skipped without being
appended, so an absolute untrusted path resolves exactly as its relative
remainder does: the accumulated working-path prefix is never reset. -/
theorem C8_root_marker_skipped (fs : Fs) (root path it u2 : List Char)
    (habs : isAbsoluteL it = true)
    (hincl : includeCurDirL u2 = false) :
    stepComp fs root path it = path ∧
      secureJoinL fs root ('/' :: u2) = secureJoinL fs root u2 := by
  constructor
  · unfold stepComp
    rw [habs]
    rfl
  · have hsplit : splitSegs ('/' :: u2) = [] :: splitSegs u2 := by
      simp [splitSegs]
    have hcomps : componentsL ('/' :: u2) =
        Component.rootDir :: (splitSegs u2).filterMap bodySeg := by
      unfold componentsL
      rw [hsplit, show isAbsoluteL ('/' :: u2) = true from rfl,
        show includeCurDirL ('/' :: u2) = false from rfl]
      rw [List.filterMap_cons, show bodySeg [] = none from rfl]
      simp
    unfold secureJoinL iterL
    rw [hcomps, List.map_cons, List.foldl_cons,
      show compChars Component.rootDir = ['/'] from rfl, stepComp_rootDir]
    unfold componentsL
    rw [hincl]
    by_cases habs2 : isAbsoluteL u2 = true
    · rw [habs2]
      simp only [if_true, Bool.false_eq_true, if_false, List.append_nil,
        List.nil_append, List.singleton_append, List.map_cons, List.foldl_cons]
      rw [show compChars Component.rootDir = ['/'] from rfl, stepComp_rootDir]
    · rw [bool_not_true _ habs2]
      simp

/-- C8 witness: `/a/b` resolves as `a/b` does. -/
theorem C8_root_marker_skipped_witness :
    stepComp emptyFs "/r".data "/r/".data "/".data = "/r/".data ∧
      secureJoinL emptyFs "/r".data ('/' :: "a/b".data) =
        secureJoinL emptyFs "/r".data "a/b".data :=
  C8_root_marker_skipped emptyFs "/r".data "/r/".data "/".data "a/b".data
    (by decide) (by decide)

/-- C9: resolution terminates even on a fully cyclic symlink oracle
(every path reads as a symlink), because the walk is a fold over the
finitely many outer components, each expanding one read target once; and
the inner expansion never consults `read_link` again, so no symlink
chasing occurs: the inner fold is invariant under changing the
`read_link` oracle. -/
theorem C9_terminates :
    secure_join fsCyc "/r" "a/b" = "/r/c/c" ∧
      ∀ (fs1 fs2 : Fs) (root st : List Char) (tcomps : List (List Char)),
        fs1.pathExists = fs2.pathExists → fs1.canonicalize = fs2.canonicalize →
        tcomps.foldl (relStep fs1 root) st = tcomps.foldl (relStep fs2 root) st := by
  constructor
  · decide
  · intro fs1 fs2 root st tcomps he hc
    induction tcomps generalizing st with
    | nil => rfl
    | cons c cs ih =>
      rw [List.foldl_cons, List.foldl_cons,
        show relStep fs1 root st c = relStep fs2 root st c from by
          unfold relStep
          rw [he, hc]]
      exact ih _

/-- C9 witness: the inner expansion of target `c` proceeds identically
whether or not further symlink reads would succeed. -/
theorem C9_terminates_witness :
    ["c".data].foldl (relStep fsCyc "/r".data) "/r/a".data =
      ["c".data].foldl (relStep fsCycErr "/r".data) "/r/a".data :=
  C9_terminates.2 fsCyc fsCycErr "/r".data "/r/a".data ["c".data] rfl rfl


/-! ### Component-wise prefixes -/

theorem compLead_iff (base cs : List Component) :
    compLead base cs = true ↔ ∃ r, cs = base ++ r := by
  induction base generalizing cs with
  | nil =>
    constructor
    · intro _; exact ⟨cs, rfl⟩
    · intro _; rfl
  | cons a as ih =>
    rcases cs with _ | ⟨b, bs⟩
    · constructor
      · intro h; cases h
      · rintro ⟨r, h⟩; cases h
    · unfold compLead
      by_cases hab : a = b
      · subst hab
        rw [if_pos rfl, ih]
        constructor
        · rintro ⟨r, rfl⟩; exact ⟨r, rfl⟩
        · rintro ⟨r, h⟩
          injection h with _ h2
          exact ⟨r, h2⟩
      · rw [if_neg hab]
        constructor
        · intro h; cases h
        · rintro ⟨r, h⟩
          injection h with h1 _
          exact absurd h1.symm hab

theorem compLead_refl (cs : List Component) : compLead cs cs = true :=
  (compLead_iff cs cs).mpr ⟨[], by simp⟩

theorem compLead_append (base x y : List Component)
    (h : compLead base x = true) : compLead base (x ++ y) = true := by
  obtain ⟨r, rfl⟩ := (compLead_iff base x).mp h
  exact (compLead_iff _ _).mpr ⟨r ++ y, by simp⟩

theorem compLead_nil_of (base : List Component)
    (h : compLead base [] = true) : base = [] := by
  rcases base with _ | ⟨x, xs⟩
  · rfl
  · cases h

/-! ### Components of a pop -/

theorem incl_true_abs_false (l : List Char) (h : includeCurDirL l = true) :
    isAbsoluteL l = false := by
  unfold includeCurDirL at h
  by_cases habs : isAbsoluteL l = true
  · rw [if_pos habs] at h; cases h
  · exact bool_not_true _ habs

theorem filterMap_nonreal (t : List Seg) (h : ∀ s ∈ t, realSeg s = false) :
    List.filterMap bodySeg t = [] := by
  rw [List.filterMap_eq_nil_iff]
  intro s hs
  have := h s hs
  unfold realSeg at this
  rcases hb : bodySeg s with _ | k
  · rfl
  · rw [hb] at this; cases this

theorem filterMap_singleton_body (x : Seg) :
    List.filterMap bodySeg [x] = (bodySeg x).toList := by
  rcases h : bodySeg x with _ | k <;> simp [List.filterMap_cons, h, Option.toList]

theorem bodySeg_of_realSeg (s : Seg) (h : realSeg s = true) :
    ∃ k, bodySeg s = some k := by
  unfold realSeg at h
  rcases hb : bodySeg s with _ | k
  · rw [hb] at h; cases h
  · exact ⟨k, rfl⟩

theorem comps_body_decomp (l : List Char) (k : Component)
    (hlast : (componentsL l).getLast? = some k)
    (hk : k ≠ Component.rootDir) (hk2 : k ≠ Component.curDir) :
    ∃ B0 k0 t kk, splitSegs l = (B0 ++ [k0]) ++ t ∧ (∀ s ∈ t, realSeg s = false) ∧
      realSeg k0 = true ∧ bodySeg k0 = some kk ∧ kk = k ∧
      keepUptoLastReal (splitSegs l) = some (B0 ++ [k0]) := by
  have hbody : (splitSegs l).filterMap bodySeg ≠ [] := by
    intro hnil
    unfold componentsL at hlast
    rw [hnil, List.append_nil] at hlast
    rcases habs : isAbsoluteL l with _ | _
    all_goals rcases hincl : includeCurDirL l with _ | _
    all_goals rw [habs, hincl] at hlast
    all_goals simp at hlast
    · exact hk2 hlast.symm
    · exact hk hlast.symm
    · exact hk2 hlast.symm
  rcases hkeep : keepUptoLastReal (splitSegs l) with _ | ks
  · exact absurd (filterMap_nonreal _ (keepUpto_none _ hkeep)) hbody
  · obtain ⟨⟨t, ht, htall⟩, B0, k0, hB, hreal⟩ := keepUpto_spec _ ks hkeep
    obtain ⟨kk, hkk⟩ := bodySeg_of_realSeg k0 hreal
    refine ⟨B0, k0, t, kk, by rw [← hB, ← ht], htall, hreal, hkk, ?_, by rw [hB]⟩
    -- kk = k from the last component
    have hsplit2 : splitSegs l = (B0 ++ [k0]) ++ t := by rw [← hB, ← ht]
    have hlast2 : (componentsL l).getLast? = some kk := by
      unfold componentsL
      rw [hsplit2, List.filterMap_append, List.filterMap_append,
        filterMap_nonreal t htall, List.append_nil, filterMap_singleton_body, hkk]
      rw [show (some kk).toList = [kk] from rfl]
      rw [List.getLast?_append_of_ne_nil _
        (by simp : (List.filterMap bodySeg B0 ++ [kk]) ≠ []), List.getLast?_concat]
    rw [hlast] at hlast2
    injection hlast2 with h
    exact h.symm


theorem bool_eq_of_iff {a b : Bool} (h : a = true ↔ b = true) : a = b := by
  cases a <;> cases b <;> simp_all

theorem comps_cur_only (l : List Char)
    (hlast : (componentsL l).getLast? = some Component.curDir) :
    componentsL l = [Component.curDir] := by
  have hbody : (splitSegs l).filterMap bodySeg = [] := by
    rcases h : (splitSegs l).filterMap bodySeg with _ | ⟨x, xs⟩
    · rfl
    · exfalso
      unfold componentsL at hlast
      rw [h, List.getLast?_append_of_ne_nil _
        (by simp : (x :: xs) ≠ ([] : List Component))] at hlast
      have hx : Component.curDir ∈ x :: xs := by
        rw [List.getLast?_eq_getLast_of_ne_nil (by simp)] at hlast
        injection hlast with h2
        exact h2 ▸ List.getLast_mem (by simp)
      obtain ⟨sx, _, hsx⟩ := List.mem_filterMap.mp (h ▸ hx)
      exact bodySeg_ne_curDir sx hsx
  unfold componentsL at hlast ⊢
  rw [hbody, List.append_nil] at hlast ⊢
  by_cases hincl : includeCurDirL l = true
  · rw [hincl] at hlast ⊢
    rw [incl_true_abs_false l hincl] at hlast ⊢
    simp
  · rw [bool_not_true _ hincl] at hlast ⊢
    by_cases habs : isAbsoluteL l = true
    · rw [habs] at hlast
      simp at hlast
    · rw [bool_not_true _ habs] at hlast
      simp at hlast

theorem comps_pop (l : List Char) (k : Component)
    (hlast : (componentsL l).getLast? = some k) (hk : k ≠ Component.rootDir) :
    componentsL (popL l) = (componentsL l).dropLast := by
  by_cases hk2 : k = Component.curDir
  · subst hk2
    have hcomps := comps_cur_only l hlast
    have hpar : parentL l = some [] := by
      unfold parentL
      rw [hlast]
    unfold popL
    rw [hpar, hcomps]
    rfl
  · obtain ⟨B0, k0, t, kk, hsplit, htall, hreal, hkk, hkkk, hkeep⟩ :=
      comps_body_decomp l k hlast hk hk2
    have hk3 : k = Component.parentDir ∨ ∃ s, k = Component.normal s := by
      rcases k with _ | _ | _ | s
      · exact absurd rfl hk
      · exact absurd rfl hk2
      · exact Or.inl rfl
      · exact Or.inr ⟨s, rfl⟩
    have hpar := parentL_main l k (B0 ++ [k0]) hlast hk3 hkeep
    rw [List.dropLast_concat] at hpar
    have hcl : componentsL l =
        ((if isAbsoluteL l then [Component.rootDir] else []) ++
         (if includeCurDirL l then [Component.curDir] else []) ++
         List.filterMap bodySeg B0) ++ [k] := by
      unfold componentsL
      rw [hsplit, List.filterMap_append, List.filterMap_append, filterMap_nonreal t htall,
        List.append_nil, filterMap_singleton_body, hkk, hkkk]
      simp [List.append_assoc]
    rcases hkeep0 : keepUptoLastReal B0 with _ | ks2
    · have hB0 : List.filterMap bodySeg B0 = [] :=
        filterMap_nonreal _ (keepUpto_none _ hkeep0)
      rw [hkeep0] at hpar
      rw [hcl, List.dropLast_concat, hB0, List.append_nil]
      by_cases hincl : includeCurDirL l = true
      · have habs : isAbsoluteL l = false := incl_true_abs_false l hincl
        have hpar2 : parentL l = some ['.'] := by rw [hpar, hincl]; simp
        unfold popL
        rw [hpar2, hincl, habs]
        rfl
      · have hincl2 := bool_not_true _ hincl
        by_cases habs : isAbsoluteL l = true
        · have hpar2 : parentL l = some ['/'] := by rw [hpar, hincl2, habs]; simp
          unfold popL
          rw [hpar2, hincl2, habs]
          rfl
        · have habs2 := bool_not_true _ habs
          have hpar2 : parentL l = some [] := by rw [hpar, hincl2, habs2]; simp
          unfold popL
          rw [hpar2, hincl2, habs2]
          rfl
    · obtain ⟨⟨t2, ht2, ht2all⟩, B2, k2, hB2, hreal2⟩ := keepUpto_spec B0 ks2 hkeep0
      rw [hkeep0] at hpar
      have hpar2 : parentL l = some (joinSegs ks2) := by rw [hpar]
      have hpop : popL l = joinSegs ks2 := by
        unfold popL
        rw [hpar2]
      rw [hpop, hcl, List.dropLast_concat]
      have hks2ne : ks2 ≠ [] := by rw [hB2]; simp
      have hrest : splitSegs l = ks2 ++ (t2 ++ [k0] ++ t) := by
        rw [hsplit, ht2]
        simp [List.append_assoc]
      have hnoslash : ∀ u ∈ ks2, '/' ∉ u := by
        intro u hu
        apply mem_splitSegs_no_slash l u
        rw [hrest]
        exact List.mem_append_left _ hu
      have hsj : splitSegs (joinSegs ks2) = ks2 := splitSegs_joinSegs ks2 hks2ne hnoslash
      have hbodyeq : List.filterMap bodySeg B0 = List.filterMap bodySeg ks2 := by
        rw [ht2, List.filterMap_append, filterMap_nonreal t2 ht2all, List.append_nil]
      have habs_eq : isAbsoluteL (joinSegs ks2) = isAbsoluteL l := by
        apply bool_eq_of_iff
        rw [isAbsolute_iff_segs, isAbsolute_iff_segs, hsj, hrest]
        rcases hB2x : ks2 with _ | ⟨x, ks2t⟩
        · exact absurd hB2x hks2ne
        · constructor
          · rintro ⟨S, hS, hSne⟩
            injection hS with h1 h2
            subst h1
            exact ⟨ks2t ++ (t2 ++ [k0] ++ t), by simp, by simp⟩
          · rintro ⟨S, hS, hSne⟩
            injection hS with h1 h2
            subst h1
            refine ⟨ks2t, rfl, ?_⟩
            rintro rfl
            have hx : B2 ++ [k2] = [[]] := by rw [← hB2, hB2x]
            rcases B2 with _ | ⟨b, bs⟩
            · injection hx with h3 _
              rw [h3] at hreal2
              exact absurd hreal2 (by decide)
            · simp at hx
      have hincl_eq : includeCurDirL (joinSegs ks2) = includeCurDirL l := by
        apply bool_eq_of_iff
        rw [includeCurDir_iff_segs, includeCurDir_iff_segs, hsj, hrest]
        rcases ks2 with _ | ⟨x, ks2t⟩
        · exact absurd rfl hks2ne
        · simp
      unfold componentsL
      rw [hsj, habs_eq, hincl_eq, hbodyeq]

/-! ### Components of a push and prefix preservation -/

theorem comps_push (st it : List Char) (hst : st ≠ []) (hit : '/' ∉ it)
    (hitne : it ≠ []) :
    componentsL (pushL st it) = componentsL st ++ (bodySeg it).toList := by
  have hitabs : isAbsoluteL it = false := isAbsolute_of_no_slash it hit
  by_cases hend : st.getLast? = some '/'
  · rw [pushL_slash_end st it hitabs hend]
    obtain ⟨l0, a, hdecomp⟩ : ∃ l0 a, st = l0 ++ [a] := by
      rcases List.eq_nil_or_concat' st with h | ⟨l0, a, h⟩
      · exact absurd h hst
      · exact ⟨l0, a, h⟩
    have ha : a = '/' := by
      rw [hdecomp, List.getLast?_concat] at hend
      simpa using hend
    subst ha
    subst hdecomp
    have h1 : splitSegs ((l0 ++ ['/']) ++ it) = splitSegs l0 ++ [it] := by
      rw [List.append_assoc, List.singleton_append]
      exact splitSegs_append_seg l0 it hit
    have h2 : splitSegs (l0 ++ ['/']) = splitSegs l0 ++ [[]] := by
      have h3 := splitSegs_append l0 []
      simpa using h3
    unfold componentsL
    rw [h1, h2,
      isAbsolute_append (l0 ++ ['/']) it (by simp),
      includeCurDir_append_of_slash_end (l0 ++ ['/']) it (List.getLast?_concat l0),
      List.filterMap_append, List.filterMap_append, filterMap_singleton_body,
      show List.filterMap bodySeg [[]] = [] from rfl]
    simp [List.append_assoc]
  · rw [pushL_sep st it hitabs hst hend]
    unfold componentsL
    rw [splitSegs_append_seg st it hit,
      isAbsolute_append st ('/' :: it) hst,
      includeCurDir_append_slash st it hst,
      List.filterMap_append, filterMap_singleton_body]
    simp [List.append_assoc]

theorem compLead_concat_abs (root v : List Char) (hv : isAbsoluteL v = true) :
    compLead (componentsL root) (componentsL (root ++ v)) = true := by
  rcases v with _ | ⟨a, v2⟩
  · cases hv
  · have ha : a = '/' := by simpa [isAbsoluteL] using hv
    subst ha
    rcases Decidable.em (root = []) with hr | hr
    · subst hr
      rfl
    · rw [compLead_iff]
      refine ⟨(splitSegs v2).filterMap bodySeg, ?_⟩
      unfold componentsL
      rw [splitSegs_append root v2, List.filterMap_append,
        isAbsolute_append root ('/' :: v2) hr, includeCurDir_append_slash root v2 hr]
      simp [List.append_assoc]

theorem bodySeg_cases (sx : Seg) (k : Component) (h : bodySeg sx = some k) :
    (k = Component.parentDir ∧ sx = ['.', '.']) ∨
      (k = Component.normal sx ∧ sx ≠ [] ∧ sx ≠ ['.'] ∧ sx ≠ ['.', '.']) := by
  unfold bodySeg at h
  by_cases h1 : sx = [] ∨ sx = ['.']
  · rw [if_pos h1] at h; cases h
  · rw [if_neg h1] at h
    by_cases h2 : sx = ['.', '.']
    · rw [if_pos h2] at h
      injection h with h
      exact Or.inl ⟨h.symm, h2⟩
    · rw [if_neg h2] at h
      injection h with h
      exact Or.inr ⟨h.symm, fun hh => h1 (Or.inl hh), fun hh => h1 (Or.inr hh), h2⟩

theorem iterL_elems (v : List Char) (hv : isAbsoluteL v = false) :
    ∀ tc ∈ iterL v, '/' ∉ tc ∧ tc ≠ [] := by
  intro tc htc
  unfold iterL at htc
  obtain ⟨c, hcmem, rfl⟩ := List.mem_map.mp htc
  unfold componentsL at hcmem
  rw [hv] at hcmem
  simp only [Bool.false_eq_true, if_false, List.nil_append] at hcmem
  rcases List.mem_append.mp hcmem with h | h
  · split at h
    · rw [List.mem_singleton.mp h]
      exact ⟨by decide, by decide⟩
    · simp at h
  · obtain ⟨sx, hsx, hb⟩ := List.mem_filterMap.mp h
    have hns : '/' ∉ sx := mem_splitSegs_no_slash v sx hsx
    rcases bodySeg_cases sx c hb with ⟨hc, _⟩ | ⟨hc, hne, _, _⟩ <;> subst hc
    · exact ⟨by decide, by decide⟩
    · exact ⟨hns, hne⟩

theorem relStep_lead (fs : Fs) (root st c : List Char)
    (hc : '/' ∉ c) (hcne : c ≠ [])
    (hlead : compLead (componentsL root) (componentsL st) = true) :
    compLead (componentsL root) (componentsL (relStep fs root st c)) = true := by
  by_cases hcr : componentsL root = []
  · rw [hcr]
    rfl
  · have hst : st ≠ [] := by
      rintro rfl
      exact hcr (compLead_nil_of _ hlead)
    simp only [relStep]
    by_cases hex : fs.pathExists (pushL st c) = true
    · rw [if_pos hex]
      by_cases hsw : startsWithL (fs.canonicalize (pushL st c)) root = true
      · rw [if_pos hsw]
        exact hsw
      · rw [if_neg hsw]
        exact compLead_refl _
    · rw [if_neg hex]
      rw [comps_push st c hst hc hcne]
      exact compLead_append _ _ _ hlead

theorem relFold_lead (fs : Fs) (root : List Char) (tcs : List (List Char))
    (h : ∀ tc ∈ tcs, '/' ∉ tc ∧ tc ≠ []) :
    ∀ st, compLead (componentsL root) (componentsL st) = true →
      compLead (componentsL root) (componentsL (tcs.foldl (relStep fs root) st)) = true := by
  induction tcs with
  | nil => exact fun st hst => hst
  | cons c cs ih =>
    intro st hst
    rw [List.foldl_cons]
    exact ih (fun tc htc => h tc (List.mem_cons_of_mem c htc)) _
      (relStep_lead fs root st c (h c (List.mem_cons_self c cs)).1
        (h c (List.mem_cons_self c cs)).2 hst)

theorem lead_after_dotdot_check (root q : List Char)
    (hrootlast : (componentsL root).getLast? ≠ some Component.parentDir)
    (hlead : compLead (componentsL root) (componentsL q) = true) :
    compLead (componentsL root)
      (componentsL (if endsWithDotDot q then popL q else q)) = true := by
  by_cases hend : endsWithDotDot q = true
  · rw [if_pos hend]
    have hql : (componentsL q).getLast? = some Component.parentDir := by
      unfold endsWithDotDot at hend
      exact of_decide_eq_true hend
    obtain ⟨r, hr⟩ := (compLead_iff _ _).mp hlead
    rcases hrn : r with _ | ⟨x, xs⟩
    · subst hrn
      rw [List.append_nil] at hr
      rw [hr] at hql
      exact absurd hql hrootlast
    · rw [comps_pop q Component.parentDir hql (by simp)]
      rw [hr, hrn, List.dropLast_append_of_ne_nil _ (by simp)]
      exact (compLead_iff _ _).mpr ⟨(x :: xs).dropLast, rfl⟩
  · rw [if_neg hend]
    exact hlead

theorem stepComp_lead_push (fs : Fs) (root st it : List Char) (k : Component)
    (hrootlast : (componentsL root).getLast? ≠ some Component.parentDir)
    (hit : '/' ∉ it) (hitne : it ≠ [])
    (hbody : bodySeg it = some k)
    (hst : st ≠ [])
    (hlead : compLead (componentsL root) (componentsL st) = true) :
    compLead (componentsL root) (componentsL (stepComp fs root st it)) = true := by
  have hitabs : isAbsoluteL it = false := isAbsolute_of_no_slash it hit
  have hpush : componentsL (pushL st it) = componentsL st ++ [k] := by
    rw [comps_push st it hst hit hitne, hbody]
    rfl
  have hkro : k ≠ Component.rootDir := by
    rintro rfl
    exact bodySeg_ne_rootDir it hbody
  unfold stepComp
  rw [hitabs]
  simp only [Bool.false_eq_true, if_false]
  apply lead_after_dotdot_check root _ hrootlast
  rcases hr : fs.readLink (pushL st it) with e | v
  · simp only [hr]
    rw [hpush]
    exact compLead_append _ _ _ hlead
  · simp only [hr]
    by_cases hva : isAbsoluteL v = true
    · rw [if_pos hva]
      exact compLead_concat_abs root v hva
    · rw [if_neg hva]
      have hpoplead : compLead (componentsL root)
          (componentsL (popL (pushL st it))) = true := by
        rw [comps_pop (pushL st it) k
          (by rw [hpush]; exact List.getLast?_concat _) hkro]
        rw [hpush, List.dropLast_concat]
        exact hlead
      exact relFold_lead fs root (iterL v) (iterL_elems v (bool_not_true _ hva)) _ hpoplead

theorem stepComp_lead (fs : Fs) (root st : List Char) (c : Component)
    (hrootlast : (componentsL root).getLast? ≠ some Component.parentDir)
    (hc : lexComp c)
    (hlead : compLead (componentsL root) (componentsL st) = true) :
    compLead (componentsL root) (componentsL (stepComp fs root st (compChars c))) = true := by
  by_cases hcr : componentsL root = []
  · rw [hcr]
    rfl
  · have hst : st ≠ [] := by
      rintro rfl
      exact hcr (compLead_nil_of _ hlead)
    rcases hc with hc | hc | ⟨s, hc, hplain⟩
    · subst hc
      rw [show compChars Component.rootDir = ['/'] from rfl, stepComp_rootDir]
      exact hlead
    · subst hc
      exact stepComp_lead_push fs root st ['.', '.'] Component.parentDir hrootlast
        (by decide) (by decide) (by decide) hst hlead
    · subst hc
      have hsne : s ≠ [] := by
        rintro rfl
        cases hplain.1
      exact stepComp_lead_push fs root st s (Component.normal s) hrootlast
        hplain.2 hsne hplain.1 hst hlead

theorem foldLead (fs : Fs) (root : List Char)
    (hrootlast : (componentsL root).getLast? ≠ some Component.parentDir) :
    ∀ (cs : List Component), (∀ c ∈ cs, lexComp c) →
      ∀ st, compLead (componentsL root) (componentsL st) = true →
        compLead (componentsL root)
          (componentsL (cs.foldl (fun acc c => stepComp fs root acc (compChars c)) st)) =
          true := by
  intro cs
  induction cs with
  | nil => exact fun _ st hst => hst
  | cons c cs ih =>
    intro hlex st hst
    rw [List.foldl_cons]
    exact ih (fun d hd => hlex d (List.mem_cons_of_mem c hd)) _
      (stepComp_lead fs root st c hrootlast (hlex c (List.mem_cons_self c cs)) hst)

theorem comps_append_slash_nil (l : List Char) (hl : l ≠ []) :
    componentsL (l ++ ['/']) = componentsL l := by
  unfold componentsL
  rw [show splitSegs (l ++ ['/']) = splitSegs l ++ [[]] from by
      have h3 := splitSegs_append l []
      simpa using h3,
    isAbsolute_append l ['/'] hl,
    show (l ++ ['/'] : List Char) = l ++ '/' :: [] from rfl,
    includeCurDir_append_slash l [] hl,
    List.filterMap_append,
    show List.filterMap bodySeg [[]] = [] from rfl, List.append_nil]

/-- C6 counterexample: the prefix invariant fails as stated.  With root
`/a/..` (ending in a `..` component) and untrusted `.`, the trailing-`..`
pop strips a component of the root itself and the result `/a` does not
have the root as a path prefix; and with root `/a` and an oracle claiming
`/a/.` is a symlink with relative target `b`, the undo-pop strips `a` and
the result `/b` escapes the root — in both cases on the returned string,
hence also at an intermediate point of the algorithm. -/
theorem C6_counterexample :
    (startsWithL (secureJoinL emptyFs "/a/..".data ".".data) "/a/..".data = false ∧
      secure_join emptyFs "/a/.." "." = "/a") ∧
    (startsWithL (secureJoinL fsDot "/a".data ".".data) "/a".data = false ∧
      secure_join fsDot "/a" "." = "/b") := by
  refine ⟨⟨by decide, by decide⟩, by decide, by decide⟩

/-- C6 (amended): for every filesystem oracle and untrusted path, if the
root's components do not end in `..` and the untrusted path has no
leading `.` component, the returned string has the root as a path prefix
in the component-wise `Path::starts_with` sense: initialization, plain
append, absolute-symlink concatenation, relative-symlink
canonicalize-and-keep, reset-to-root, and the trailing-`..` pop all
preserve the prefix under these hypotheses. -/
theorem C6_prefix_amended (fs : Fs) (root untrusted : String)
    (hrootlast : (componentsL root.data).getLast? ≠ some Component.parentDir)
    (hincl : includeCurDirL untrusted.data = false) :
    startsWithL (secureJoinL fs root.data untrusted.data) root.data = true := by
  unfold startsWithL
  rw [secureJoinL_eq_fold]
  have hinit : compLead (componentsL root.data)
      (componentsL (root.data ++ ['/'])) = true := by
    rcases Decidable.em (root.data = []) with hr | hr
    · rw [hr]
      rfl
    · rw [comps_append_slash_nil root.data hr]
      exact compLead_refl _
  exact foldLead fs root.data hrootlast (componentsL untrusted.data)
    (comps_lex _ hincl) _ hinit

/-- C6 witness: on the adversarial oracle `fsDot` with root `/a` and
untrusted `x`, the result is contained. -/
theorem C6_prefix_amended_witness :
    startsWithL (secureJoinL fsDot "/a".data "x".data) "/a".data = true :=
  C6_prefix_amended fsDot "/a" "x" (by decide) (by decide)

/-- C7 counterexample: re-resolving a prior resolved output against the
same root does not return it unchanged: `a` under `/home/rootfs` resolves
to `/home/rootfs/a` (no symlinks, no `..` anywhere), but feeding that
output back in yields `/home/rootfs/home/rootfs/a`. -/
theorem C7_counterexample :
    secure_join emptyFs "/home/rootfs" "a" = "/home/rootfs/a" ∧
      secure_join emptyFs "/home/rootfs" (secure_join emptyFs "/home/rootfs" "a") ≠
        secure_join emptyFs "/home/rootfs" "a" ∧
      secure_join emptyFs "/home/rootfs" (secure_join emptyFs "/home/rootfs" "a") =
        "/home/rootfs/home/rootfs/a" := by
  refine ⟨by decide, by decide, by decide⟩

/-- C7 (amended): prior outputs are fixed points of re-resolution only
against the empty root: for a prior output produced with empty root from
a `..`-and-names path with at least one name and no leading `.` — an
absolute chain of plain names — re-resolving it with root `""` on any
filesystem whose symlink reads all fail returns it unchanged. -/
theorem C7_idempotent_amended (fs fs2 : Fs) (untrusted : String)
    (hfs2 : ∀ p, (fs2.readLink p).toOption = none)
    (hfs : ∀ p, (fs.readLink p).toOption = none)
    (hincl : includeCurDirL untrusted.data = false)
    (hnames : namesOf (componentsL untrusted.data) ≠ []) :
    secure_join fs "" (secure_join fs2 "" untrusted) = secure_join fs2 "" untrusted := by
  have hplain : ∀ s ∈ namesOf (componentsL untrusted.data), plainSeg s :=
    namesOf_plain _ (comps_lex _ hincl)
  have hp : (secure_join fs2 "" untrusted).data =
      '/' :: joinSegs (namesOf (componentsL untrusted.data)) := by
    show (String.mk (secureJoinL fs2 "".data untrusted.data)).data = _
    rw [show "".data = ([] : List Char) from rfl,
      secureJoin_lexical fs2 [] untrusted.data hfs2 (by decide) hincl hnames]
    rfl
  have hcomps := comps_abs_names (namesOf (componentsL untrusted.data)) hnames hplain
  show String.mk (secureJoinL fs "".data (secure_join fs2 "" untrusted).data) = _
  rw [show "".data = ([] : List Char) from rfl, hp,
    secureJoin_lexical fs [] ('/' :: joinSegs (namesOf (componentsL untrusted.data)))
      hfs (by decide) rfl
      (by rw [hcomps, namesOf_map_normal]; exact hnames),
    hcomps, namesOf_map_normal, List.nil_append, ← hp, string_mk_data]

/-- C7 witness: the output of resolving `a/b` against the empty root is a
fixed point. -/
theorem C7_idempotent_amended_witness :
    secure_join emptyFs "" (secure_join emptyFs "" "a/b") =
      secure_join emptyFs "" "a/b" :=
  C7_idempotent_amended emptyFs emptyFs "a/b" (fun p => rfl) (fun p => rfl)
    (by decide) (by decide)

end SecurePath
